import Mathlib

/-!
Verification of the distributed-vector core of the deal.II repository
(LinearAlgebra::distributed::Vector and its Partitioner).  The repository
snapshot contains only the explicit template instantiations
(source/lac/la_parallel_vector.cc), deprecated forwarding headers and tests;
the template bodies (la_parallel_vector.templates.h, partitioner) are not
part of the snapshot.  The definitions below therefore model the
distributed-vector core from the specification: partition description,
ghost exchange, the insert/add compress state machine, cross-memory-space
storage and the arithmetic facade.  Scalars are modelled by rationals so
that the algebraic identities are exact (the specification qualifies the
floating-point statements with "up to rounding").
-/

namespace DealII

/-- Modelled from the spec: a Partition (the Partitioner class, absent from
the snapshot) assigns to each process a contiguous half-open interval of
globally numbered indices.  The intervals are recorded by their sizes, one
entry per process, so that process p owns the interval starting at the sum
of the sizes of processes 0..p-1; `ghostIndices p` is the list of global
indices process p reads but does not own. -/
structure Partition where
  localSizes : List ℕ
  ghostIndices : ℕ → List ℕ

/-- Number of processes sharing the partition. -/
def Partition.nProcs (P : Partition) : ℕ := P.localSizes.length

/-- Modelled from the spec: total number of indices across all processes. -/
def Partition.globalSize (P : Partition) : ℕ := P.localSizes.sum

/-- Modelled from the spec: the number of indices owned by process p. -/
def Partition.localSize (P : Partition) (p : ℕ) : ℕ := P.localSizes.getD p 0

/-- Modelled from the spec: the first global index of the contiguous range
owned by process p. -/
def Partition.rangeBegin (P : Partition) (p : ℕ) : ℕ := (P.localSizes.take p).sum

/-- Modelled from the spec: membership of a global index g in the half-open
interval `local_range` of process p. -/
def Partition.inLocalRange (P : Partition) (p g : ℕ) : Prop :=
  P.rangeBegin p ≤ g ∧ g < P.rangeBegin p + P.localSize p

instance (P : Partition) (p g : ℕ) : Decidable (P.inLocalRange p g) := by
  unfold Partition.inLocalRange
  exact instDecidableAnd

/-- Helper computing the owner of a global index by walking the size list. -/
def ownerAux : List ℕ → ℕ → ℕ
  | [], _ => 0
  | n :: t, g => if g < n then 0 else ownerAux t (g - n) + 1

/-- Modelled from the spec: the process owning a global index (each index
is owned by exactly one process). -/
def Partition.owner (P : Partition) (g : ℕ) : ℕ := ownerAux P.localSizes g

lemma sum_take_succ (l : List ℕ) (p : ℕ) :
    (l.take (p + 1)).sum = (l.take p).sum + l.getD p 0 := by
  induction l generalizing p with
  | nil => simp
  | cons n t ih =>
    cases p with
    | zero => simp
    | succ q => simp only [List.take_succ_cons, List.sum_cons, ih q, List.getD_cons_succ]; omega

lemma sum_take_le_sum (l : List ℕ) (k : ℕ) : (l.take k).sum ≤ l.sum := by
  conv_rhs => rw [← List.take_append_drop k l]
  rw [List.sum_append]
  exact Nat.le_add_right _ _

lemma rangeBegin_succ (P : Partition) (p : ℕ) :
    P.rangeBegin (p + 1) = P.rangeBegin p + P.localSize p :=
  sum_take_succ P.localSizes p

lemma rangeBegin_mono (P : Partition) {p q : ℕ} (h : p ≤ q) :
    P.rangeBegin p ≤ P.rangeBegin q := by
  unfold Partition.rangeBegin
  have : P.localSizes.take p = (P.localSizes.take q).take p := by
    rw [List.take_take, Nat.min_eq_left h]
  rw [this]
  exact sum_take_le_sum _ _

lemma rangeEnd_le_rangeBegin (P : Partition) {p q : ℕ} (h : p < q) :
    P.rangeBegin p + P.localSize p ≤ P.rangeBegin q := by
  rw [← rangeBegin_succ]
  exact rangeBegin_mono P h

lemma ownerAux_spec : ∀ (l : List ℕ) (g : ℕ), g < l.sum →
    (l.take (ownerAux l g)).sum ≤ g ∧
    g < (l.take (ownerAux l g)).sum + l.getD (ownerAux l g) 0 ∧
    ownerAux l g < l.length := by
  intro l
  induction l with
  | nil => intro g hg; simp at hg
  | cons n t ih =>
    intro g hg
    by_cases hgn : g < n
    · simp [ownerAux, hgn]
    · have hsum : g - n < t.sum := by simp [List.sum_cons] at hg; omega
      obtain ⟨h1, h2, h3⟩ := ih (g - n) hsum
      have hge : n ≤ g := Nat.le_of_not_lt hgn
      refine ⟨?_, ?_, ?_⟩
      · simp only [ownerAux, if_neg hgn, List.take_succ_cons, List.sum_cons]
        omega
      · simp only [ownerAux, if_neg hgn, List.take_succ_cons, List.sum_cons,
          List.getD_cons_succ]
        omega
      · simp only [ownerAux, if_neg hgn, List.length_cons]
        omega

/-- The owner of a global index g below the global size indeed holds g in
its local range, and is a valid process number. -/
lemma owner_spec (P : Partition) {g : ℕ} (hg : g < P.globalSize) :
    P.inLocalRange (P.owner g) g ∧ P.owner g < P.nProcs := by
  obtain ⟨h1, h2, h3⟩ := ownerAux_spec P.localSizes g hg
  exact ⟨⟨h1, h2⟩, h3⟩

/-- C7.  Partition tiling: for every partition built from per-process sizes
(all valid constructions), the local ranges of distinct processes are
pairwise disjoint, and their union over the valid process numbers is
exactly the interval from 0 to the global size. -/
theorem partition_tiling (P : Partition) (g p q : ℕ) :
    (g < P.globalSize ↔ ∃ r, r < P.nProcs ∧ P.inLocalRange r g) ∧
    (p ≠ q → ¬(P.inLocalRange p g ∧ P.inLocalRange q g)) := by
  constructor
  · constructor
    · intro hg
      obtain ⟨h1, h2⟩ := owner_spec P hg
      exact ⟨P.owner g, h2, h1⟩
    · rintro ⟨r, hr, hlo, hhi⟩
      have : P.rangeBegin r + P.localSize r = (P.localSizes.take (r + 1)).sum :=
        (rangeBegin_succ P r).symm
      have hle : (P.localSizes.take (r + 1)).sum ≤ P.localSizes.sum :=
        sum_take_le_sum _ _
      show g < P.localSizes.sum
      omega
  · rintro hpq ⟨⟨hp1, hp2⟩, ⟨hq1, hq2⟩⟩
    rcases Nat.lt_or_ge p q with h | h
    · have := rangeEnd_le_rangeBegin P h
      omega
    · have hlt : q < p := Nat.lt_of_le_of_ne h (fun e => hpq e.symm)
      have := rangeEnd_le_rangeBegin P hlt
      omega

/-- Concrete partition used by witnesses: the two-process scenario of the
spec (global size 10, process 0 owns 0..4 with ghost index 5, process 1
owns 5..9 with ghost index 4). -/
def Ptwo : Partition :=
  { localSizes := [5, 5],
    ghostIndices := fun p => if p = 0 then [5] else if p = 1 then [4] else [] }

/-- Witness for C7 at the concrete two-process partition: process numbers
0 and 1 are distinct and index 7 does not lie in both local ranges. -/
theorem partition_tiling_witness :
    (0 : ℕ) ≠ 1 ∧ ¬(Ptwo.inLocalRange 0 7 ∧ Ptwo.inLocalRange 1 7) :=
  ⟨by decide, (partition_tiling Ptwo 7 0 1).2 (by decide)⟩

/-- Modelled from the spec: the global state of one distributed vector over
a partition (the Storage buffers of all processes together).  `owned p i`
is the value in slot i of the owned region of process p (meaningful for
i below the local size of p); `ghost p g` is the value in the ghost slot
of process p that caches global index g (meaningful when g is among the
ghost indices of p; the compact ghost numbering of the spec is a bijection
between those slots and the ghost indices, so slots are keyed by g). -/
@[ext]
structure GState where
  owned : ℕ → ℕ → ℚ
  ghost : ℕ → ℕ → ℚ

/-- The authoritative value of global index g: the entry of the owning
process at the owned slot corresponding to g. -/
def ownedValue (P : Partition) (s : GState) (g : ℕ) : ℚ :=
  s.owned (P.owner g) (g - P.rangeBegin (P.owner g))

/-- Modelled from the spec: update_ghost_values (absent template body).
Every process receives into each of its ghost slots the current value of
the owning process for that index; owned storage is untouched. -/
def update_ghost_values (P : Partition) (s : GState) : GState :=
  { owned := s.owned,
    ghost := fun p g =>
      if g ∈ P.ghostIndices p then ownedValue P s g else s.ghost p g }

/-- Modelled from the spec: compress_add (absent template body).  Each
process sends its ghost-slot values to the owning process, which adds them
into its owned storage; all contributing ghost slots are then zeroed. -/
def compress_add (P : Partition) (s : GState) : GState :=
  { owned := fun p i =>
      s.owned p i +
        ((List.range P.nProcs).map (fun q =>
          if P.rangeBegin p + i ∈ P.ghostIndices q
          then s.ghost q (P.rangeBegin p + i) else 0)).sum,
    ghost := fun p g => if g ∈ P.ghostIndices p then 0 else s.ghost p g }

/-- C2.  Ghost round-trip: after update_ghost_values, every ghost slot g of
every process p holds the value that the owning process held in its owned
slot for g at the time of the call, and the call changes no owned data
(so the fetched values are a snapshot of the owners at call time). -/
theorem ghost_round_trip (P : Partition) (s : GState) (p g : ℕ)
    (hg : g ∈ P.ghostIndices p) :
    (update_ghost_values P s).ghost p g = ownedValue P s g ∧
    (update_ghost_values P s).owned = s.owned := by
  constructor
  · simp [update_ghost_values, if_pos hg]
  · rfl

/-- Concrete global state used by witnesses: every process stores its rank
plus one in each owned slot; ghost slots start at zero. -/
def gsRank : GState :=
  { owned := fun p _ => (p : ℚ) + 1, ghost := fun _ _ => 0 }

/-- Witness for C2 at the concrete two-process partition: global index 5 is
a ghost index of process 0, and after the exchange the ghost slot of
process 0 holds the value of the owner of index 5. -/
theorem ghost_round_trip_witness :
    (5 ∈ Ptwo.ghostIndices 0) ∧
    ((update_ghost_values Ptwo gsRank).ghost 0 5 = ownedValue Ptwo gsRank 5 ∧
     (update_ghost_values Ptwo gsRank).owned = gsRank.owned) :=
  ⟨by decide, ghost_round_trip Ptwo gsRank 0 5 (by decide)⟩

/-- Modelled from the spec: the states of the compress state machine. -/
inductive CState
  | Uninit
  | Writable
  | AddMode
  | SetMode
  | Compressed
deriving DecidableEq

/-- Modelled from the spec: the policy argument of compress
(VectorOperation::add and VectorOperation::insert). -/
inductive VOp
  | Add
  | Insert
deriving DecidableEq

/-- Modelled from the spec: the usage and structural error kinds of the
error-handling design. -/
inductive VecError
  | CompressModeMismatch
  | MixedWriteModeError
  | StaleGhostReadError
  | PartitionMismatch
deriving DecidableEq

/-- Modelled from the spec: compress with the Add policy is legal from
AddMode or Writable, compress with the Insert policy is legal from SetMode
or Writable. -/
def compressLegal : VOp → CState → Bool
  | .Add, .AddMode => true
  | .Add, .Writable => true
  | .Insert, .SetMode => true
  | .Insert, .Writable => true
  | _, _ => false

/-- A distributed vector: its compress state together with the global
state of its storage across processes. -/
structure DVec where
  st : CState
  gs : GState

/-- Modelled from the spec: compress.  An illegal policy/state combination
fails with CompressModeMismatch.  A legal compress(Add) runs compress_add;
a legal compress(Insert) redistributes the authoritative owner values via
update_ghost_values.  The spec states that afterwards the state is
Writable (its Compressed label is explicitly said to degrade back to
Writable semantics, since owned data is always visible and only ghost
consistency is tracked), so Writable is the operative post-state. -/
def compressG (P : Partition) (op : VOp) (v : DVec) : Except VecError DVec :=
  if compressLegal op v.st then
    .ok { st := .Writable,
          gs := match op with
            | .Add => compress_add P v.gs
            | .Insert => update_ghost_values P v.gs }
  else .error .CompressModeMismatch

/-- C3.  Compress legality: compress(Insert) from AddMode and compress(Add)
from SetMode fail with CompressModeMismatch; compress(Add) succeeds
exactly from AddMode or Writable and compress(Insert) succeeds exactly
from SetMode or Writable. -/
theorem compress_mode_rules (P : Partition) (v : DVec) :
    (v.st = .AddMode → compressG P .Insert v = .error .CompressModeMismatch) ∧
    (v.st = .SetMode → compressG P .Add v = .error .CompressModeMismatch) ∧
    ((∃ u, compressG P .Add v = .ok u) ↔ (v.st = .AddMode ∨ v.st = .Writable)) ∧
    ((∃ u, compressG P .Insert v = .ok u) ↔ (v.st = .SetMode ∨ v.st = .Writable)) := by
  obtain ⟨st, gs⟩ := v
  cases st <;> simp [compressG, compressLegal]

/-- Witness for C3: a vector in AddMode over the concrete partition, on
which compress(Insert) fails with CompressModeMismatch. -/
theorem compress_mode_rules_witness :
    compressG Ptwo .Insert { st := .AddMode, gs := gsRank } =
      .error .CompressModeMismatch :=
  (compress_mode_rules Ptwo { st := .AddMode, gs := gsRank }).1 rfl

lemma update_ghost_values_owned (P : Partition) (s : GState) :
    (update_ghost_values P s).owned = s.owned := rfl

lemma ownedValue_update (P : Partition) (s : GState) (g : ℕ) :
    ownedValue P (update_ghost_values P s) g = ownedValue P s g := rfl

lemma update_ghost_values_idem (P : Partition) (s : GState) :
    update_ghost_values P (update_ghost_values P s) = update_ghost_values P s := by
  ext p g
  · rfl
  · show (if g ∈ P.ghostIndices p then ownedValue P (update_ghost_values P s) g
          else (update_ghost_values P s).ghost p g) = _
    rw [ownedValue_update]
    unfold update_ghost_values
    by_cases h : g ∈ P.ghostIndices p <;> simp [h]

/-- C5.  Idempotent set-compress: if compress(Insert) is legal and yields
the vector v1, then running compress(Insert) again with no intervening
writes succeeds and returns v1 itself, so every owned and ghost value on
every process is unchanged relative to the state after the first call. -/
theorem compress_insert_idem (P : Partition) (v v1 : DVec)
    (h : compressG P .Insert v = .ok v1) :
    compressG P .Insert v1 = .ok v1 := by
  unfold compressG at h ⊢
  by_cases hleg : compressLegal .Insert v.st = true
  · rw [if_pos hleg] at h
    have hv1 : v1 = { st := .Writable,
                      gs := update_ghost_values P v.gs } := by
      cases h
      rfl
    subst hv1
    simp [compressLegal, update_ghost_values_idem]
  · rw [if_neg hleg] at h
    cases h

/-- The vector obtained from the rank-valued state by a first
compress(Insert) over the concrete two-process partition. -/
def vIns : DVec := { st := .Writable, gs := update_ghost_values Ptwo gsRank }

/-- Witness for C5: over the concrete partition, a first compress(Insert)
from Writable yields vIns, and a second compress(Insert) returns vIns
unchanged. -/
theorem compress_insert_idem_witness :
    compressG Ptwo .Insert { st := .Writable, gs := gsRank } = .ok vIns ∧
    compressG Ptwo .Insert vIns = .ok vIns :=
  ⟨rfl, compress_insert_idem Ptwo { st := .Writable, gs := gsRank } vIns rfl⟩

/-- Modelled from the spec: an assembly-style accumulate of the value x
into the ghost slot of process p caching global index g (the accumulate
write mode of the scatter capability). -/
def add_into_ghost (p g : ℕ) (x : ℚ) (s : GState) : GState :=
  { owned := s.owned,
    ghost := fun q h =>
      if q = p ∧ h = g then s.ghost q h + x else s.ghost q h }

/-- Each process in the list ps accumulates its value (v p) into its own
ghost slot for global index g, in list order. -/
def accumulateMany (g : ℕ) (v : ℕ → ℚ) : List ℕ → GState → GState
  | [], s => s
  | p :: t, s => accumulateMany g v t (add_into_ghost p g (v p) s)

lemma accumulateMany_owned (g : ℕ) (v : ℕ → ℚ) :
    ∀ (ps : List ℕ) (s : GState), (accumulateMany g v ps s).owned = s.owned := by
  intro ps
  induction ps with
  | nil => intro s; rfl
  | cons p t ih => intro s; rw [accumulateMany, ih]; rfl

lemma accumulateMany_ghost (g : ℕ) (v : ℕ → ℚ) :
    ∀ (ps : List ℕ), ps.Nodup → ∀ (s : GState) (q h : ℕ),
      (accumulateMany g v ps s).ghost q h =
        if q ∈ ps ∧ h = g then s.ghost q h + v q else s.ghost q h := by
  intro ps
  induction ps with
  | nil => intro _ s q h; simp [accumulateMany]
  | cons p t ih =>
    intro hnd s q h
    have hpt : p ∉ t := (List.nodup_cons.mp hnd).1
    have htnd : t.Nodup := (List.nodup_cons.mp hnd).2
    rw [accumulateMany, ih htnd]
    by_cases hqt : q ∈ t
    · have hqp : q ≠ p := fun e => hpt (e ▸ hqt)
      by_cases hg : h = g
      · simp [add_into_ghost, hqt, hg, hqp]
      · simp [add_into_ghost, hg]
    · by_cases hqp : q = p
      · by_cases hg : h = g
        · simp [add_into_ghost, hqt, hg, hqp, hpt]
        · simp [add_into_ghost, hg]
      · have : q ∉ p :: t := by simp [hqp, hqt]
        simp [add_into_ghost, hqt, hqp, this]

lemma accumulateMany_eq (g : ℕ) (v : ℕ → ℚ) (ps : List ℕ) (hnd : ps.Nodup)
    (s : GState) :
    accumulateMany g v ps s =
      { owned := s.owned,
        ghost := fun q h =>
          if q ∈ ps ∧ h = g then s.ghost q h + v q else s.ghost q h } := by
  ext q h
  · rw [accumulateMany_owned]
  · rw [accumulateMany_ghost g v ps hnd]

lemma accumulateMany_perm (g : ℕ) (v : ℕ → ℚ) (ps1 ps2 : List ℕ)
    (hperm : ps1.Perm ps2) (hnd : ps1.Nodup) (s : GState) :
    accumulateMany g v ps1 s = accumulateMany g v ps2 s := by
  rw [accumulateMany_eq g v ps1 hnd s,
    accumulateMany_eq g v ps2 (hperm.nodup_iff.mp hnd) s]
  ext q h
  · rfl
  · show (if q ∈ ps1 ∧ h = g then _ else _) = (if q ∈ ps2 ∧ h = g then _ else _)
    simp only [hperm.mem_iff]

lemma sum_ite_mem (v : ℕ → ℚ) :
    ∀ (ps L : List ℕ), L.Nodup → ps.Nodup → (∀ p ∈ ps, p ∈ L) →
      (L.map (fun p => if p ∈ ps then v p else 0)).sum = (ps.map v).sum := by
  intro ps
  induction ps with
  | nil =>
    intro L _ _ _
    simp
  | cons p t ih =>
    intro L hL hnd hsub
    have hpL : p ∈ L := hsub p (List.mem_cons_self p t)
    have hperm : L.Perm (p :: L.erase p) := List.perm_cons_erase hpL
    have hpt : p ∉ t := (List.nodup_cons.mp hnd).1
    have htnd : t.Nodup := (List.nodup_cons.mp hnd).2
    have hcongr : (L.erase p).map (fun r => if r ∈ p :: t then v r else 0) =
        (L.erase p).map (fun r => if r ∈ t then v r else 0) := by
      apply List.map_congr_left
      intro r hr
      have hrp : r ≠ p := (hL.mem_erase_iff.mp hr).1
      by_cases hrt : r ∈ t
      · simp [hrt]
      · have : r ∉ p :: t := by simp [hrp, hrt]
        simp [this, hrt]
    rw [(hperm.map (fun r => if r ∈ p :: t then v r else 0)).sum_eq,
      List.map_cons, List.sum_cons, if_pos (List.mem_cons_self p t), hcongr,
      ih (L.erase p) (hL.erase p) htnd ?_]
    · simp
    · intro r hrt
      have hrp : r ≠ p := fun e => hpt (e ▸ hrt)
      exact hL.mem_erase_iff.mpr ⟨hrp, hsub r (List.mem_cons_of_mem p hrt)⟩

/-- C1.  Scatter-add correctness: if the processes in ps (pairwise
distinct) each accumulate their value into their clean ghost slot for the
global index g, then compress_add leaves the owning process holding its
pre-existing value plus the sum of all contributions, zeroes every ghost
slot for g, and the result does not depend on the order in which the
contributions of the processes are combined. -/
theorem scatter_add_correct (P : Partition) (g : ℕ) (v : ℕ → ℚ)
    (ps : List ℕ) (s : GState)
    (hg : g < P.globalSize)
    (hnd : ps.Nodup)
    (hmem : ∀ p ∈ ps, p < P.nProcs ∧ g ∈ P.ghostIndices p)
    (hclean : ∀ q, g ∈ P.ghostIndices q → s.ghost q g = 0) :
    ownedValue P (compress_add P (accumulateMany g v ps s)) g =
      ownedValue P s g + (ps.map v).sum ∧
    (∀ q, g ∈ P.ghostIndices q →
      (compress_add P (accumulateMany g v ps s)).ghost q g = 0) ∧
    (∀ ps2, ps2.Perm ps →
      compress_add P (accumulateMany g v ps2 s) =
        compress_add P (accumulateMany g v ps s)) := by
  obtain ⟨⟨hlo, _⟩, _⟩ := owner_spec P hg
  have hgidx : P.rangeBegin (P.owner g) + (g - P.rangeBegin (P.owner g)) = g := by
    omega
  refine ⟨?_, ?_, ?_⟩
  · show (accumulateMany g v ps s).owned (P.owner g) (g - P.rangeBegin (P.owner g)) +
        ((List.range P.nProcs).map (fun q =>
          if P.rangeBegin (P.owner g) + (g - P.rangeBegin (P.owner g)) ∈
              P.ghostIndices q
          then (accumulateMany g v ps s).ghost q
            (P.rangeBegin (P.owner g) + (g - P.rangeBegin (P.owner g)))
          else 0)).sum = _
    rw [accumulateMany_owned]
    have hmap : (List.range P.nProcs).map (fun q =>
        if P.rangeBegin (P.owner g) + (g - P.rangeBegin (P.owner g)) ∈
            P.ghostIndices q
        then (accumulateMany g v ps s).ghost q
          (P.rangeBegin (P.owner g) + (g - P.rangeBegin (P.owner g)))
        else 0) =
        (List.range P.nProcs).map (fun q => if q ∈ ps then v q else 0) := by
      apply List.map_congr_left
      intro q _
      rw [hgidx, accumulateMany_ghost g v ps hnd]
      by_cases hq : g ∈ P.ghostIndices q
      · rw [if_pos hq, hclean q hq]
        by_cases hqps : q ∈ ps
        · simp [hqps]
        · simp [hqps]
      · rw [if_neg hq]
        have : q ∉ ps := fun hqps => hq (hmem q hqps).2
        simp [this]
    rw [hmap, sum_ite_mem v ps (List.range P.nProcs) (List.nodup_range _) hnd
      (fun p hp => List.mem_range.mpr (hmem p hp).1)]
    rfl
  · intro q hq
    show (if g ∈ P.ghostIndices q then 0
          else (accumulateMany g v ps s).ghost q g) = 0
    rw [if_pos hq]
  · intro ps2 hp2
    rw [accumulateMany_perm g v ps2 ps hp2 (hp2.nodup_iff.mpr hnd) s]

/-- Concrete three-process partition for the scatter-add witness: each
process owns two indices; processes 1 and 2 both cache global index 0
(owned by process 0) as a ghost. -/
def Pthree : Partition :=
  { localSizes := [2, 2, 2],
    ghostIndices := fun p => if p = 1 then [0] else if p = 2 then [0] else [] }

/-- Witness for C1: over the three-process partition, processes 1 and 2
each accumulate 3 into their ghost slot for global index 0; after
compress_add the owner holds its pre-existing value plus the sum of the
two contributions. -/
theorem scatter_add_correct_witness :
    ownedValue Pthree
        (compress_add Pthree (accumulateMany 0 (fun _ => 3) [1, 2] gsRank)) 0 =
      ownedValue Pthree gsRank 0 + (([1, 2].map (fun _ => (3 : ℚ))).sum) :=
  (scatter_add_correct Pthree 0 (fun _ => 3) [1, 2] gsRank (by decide) (by decide)
    (by decide) (fun _ _ => rfl)).1

/-- Modelled from the spec: the two write modes of the scatter capability,
overwrite and accumulate. -/
inductive WriteMode
  | overwrite
  | accumulate
deriving DecidableEq

/-- Modelled from the spec: the per-process view of a vector, a flat
Storage buffer whose slots below localSize are the owned entries (ghost
slots follow), together with the compress state of the vector. -/
structure LVector where
  localSize : ℕ
  data : List ℚ
  cstate : CState

/-- Modelled from the spec: the state transition caused by a single write.
Writing to an owned slot always keeps or returns the state to Writable;
writing to a ghost slot moves to SetMode under overwrite and to AddMode
under accumulate, and mixing the two without an intervening compress is a
MixedWriteModeError. -/
def writeTransition : CState → Bool → WriteMode → Except VecError CState
  | _, false, _ => .ok .Writable
  | st, true, .overwrite =>
      if st = .AddMode then .error .MixedWriteModeError else .ok .SetMode
  | st, true, .accumulate =>
      if st = .SetMode then .error .MixedWriteModeError else .ok .AddMode

/-- The slot content produced by one write: overwrite replaces the current
content, accumulate adds to it. -/
def writeValue (m : WriteMode) (cur x : ℚ) : ℚ :=
  match m with
  | .overwrite => x
  | .accumulate => cur + x

/-- Modelled from the spec: a single indexed write through the facade.
Slot i is a ghost slot exactly when localSize is at most i; overwrite
stores the value, accumulate adds it to the current slot content. -/
def LVector.write (v : LVector) (i : ℕ) (m : WriteMode) (x : ℚ) :
    Except VecError LVector :=
  match writeTransition v.cstate (decide (v.localSize ≤ i)) m with
  | .error e => .error e
  | .ok st =>
      .ok { v with
            cstate := st
            data := v.data.set i (writeValue m (v.data.getD i 0) x) }

/-- Runs a list of writes (index, mode, value) left to right, stopping at
the first usage error. -/
def writeAll : LVector → List (ℕ × WriteMode × ℚ) → Except VecError LVector
  | v, [] => .ok v
  | v, w :: ws =>
    match v.write w.1 w.2.1 w.2.2 with
    | .error e => .error e
    | .ok v1 => writeAll v1 ws

/-- The value a sequence of writes produces at index i, starting from the
current content c: overwrite replaces, accumulate adds. -/
def writtenFrom (i : ℕ) : ℚ → List (ℕ × WriteMode × ℚ) → ℚ
  | c, [] => c
  | c, w :: ws =>
      writtenFrom i (if w.1 = i then writeValue w.2.1 c w.2.2 else c) ws

/-- Modelled from the spec: compress on the per-process view.  An illegal
policy/state combination is a CompressModeMismatch; a legal compress
reconciles ghost consistency (a cross-process action outside this local
view) and leaves the state Writable, with owned data untouched since owned
writes are always immediately visible locally. -/
def LVector.compress (v : LVector) (op : VOp) : Except VecError LVector :=
  if compressLegal op v.cstate then .ok { v with cstate := .Writable }
  else .error .CompressModeMismatch

/-- A freshly allocated vector: n owned slots, all zero, state Writable. -/
def freshLVector (n : ℕ) : LVector :=
  { localSize := n, data := List.replicate n 0, cstate := .Writable }

lemma writeTransition_owned (st : CState) (m : WriteMode) :
    writeTransition st false m = .ok .Writable := by
  cases st <;> cases m <;> rfl

lemma getD_set (l : List ℚ) (j i : ℕ) (a : ℚ) :
    (l.set j a).getD i 0 = if i = j ∧ j < l.length then a else l.getD i 0 := by
  induction l generalizing i j with
  | nil => simp
  | cons c t ih =>
    cases j with
    | zero =>
      cases i with
      | zero => simp
      | succ k => simp
    | succ m =>
      cases i with
      | zero => simp
      | succ k => simpa using ih m k

lemma getD_replicate_zero (n i : ℕ) : (List.replicate n (0 : ℚ)).getD i 0 = 0 := by
  induction n generalizing i with
  | zero => simp
  | succ m ih =>
    cases i with
    | zero => simp [List.replicate_succ]
    | succ k =>
      rw [List.replicate_succ]
      exact ih k

lemma writeAll_owned_only :
    ∀ (ws : List (ℕ × WriteMode × ℚ)) (v : LVector),
      v.cstate = .Writable → v.localSize ≤ v.data.length →
      (∀ w ∈ ws, w.1 < v.localSize) →
      ∃ u, writeAll v ws = .ok u ∧ u.cstate = .Writable ∧
        u.localSize = v.localSize ∧ u.data.length = v.data.length ∧
        ∀ i, u.data.getD i 0 = writtenFrom i (v.data.getD i 0) ws := by
  intro ws
  induction ws with
  | nil =>
    intro v hst _ _
    exact ⟨v, rfl, hst, rfl, rfl, fun i => rfl⟩
  | cons w ws ih =>
    intro v hst hle hlt
    obtain ⟨j, m, x⟩ := w
    have hj : j < v.localSize := hlt (j, m, x) (List.mem_cons_self _ _)
    have hdec : decide (v.localSize ≤ j) = false :=
      decide_eq_false (Nat.not_le.mpr hj)
    have hwrite : v.write j m x =
        .ok { v with
              cstate := .Writable
              data := v.data.set j (writeValue m (v.data.getD j 0) x) } := by
      unfold LVector.write
      rw [hdec, writeTransition_owned]
    set v1 : LVector :=
      { v with
        cstate := .Writable
        data := v.data.set j (writeValue m (v.data.getD j 0) x) } with hv1
    obtain ⟨u, hu1, hu2, hu3, hu4, hu5⟩ := ih v1 rfl
      (by simp [hv1, hle]) (fun r hr => hlt r (List.mem_cons_of_mem _ hr))
    refine ⟨u, ?_, hu2, hu3, by simpa [hv1] using hu4, ?_⟩
    · show writeAll v ((j, m, x) :: ws) = .ok u
      unfold writeAll
      rw [hwrite]
      exact hu1
    · intro i
      rw [hu5 i]
      show writtenFrom i ((v.data.set j _).getD i 0) ws = _
      rw [getD_set]
      have hjlen : j < v.data.length := Nat.lt_of_lt_of_le hj hle
      show _ = writtenFrom i
        (if j = i then writeValue m (v.data.getD i 0) x else v.data.getD i 0) ws
      by_cases hij : i = j
      · subst hij
        rw [if_pos ⟨rfl, hjlen⟩, if_pos rfl]
      · have hcond : ¬(i = j ∧ j < v.data.length) := fun hc => hij hc.1
        rw [if_neg hcond, if_neg (fun e => hij e.symm)]

lemma writtenFrom_untouched (i : ℕ) :
    ∀ (ws : List (ℕ × WriteMode × ℚ)) (c : ℚ),
      (∀ w ∈ ws, w.1 ≠ i) → writtenFrom i c ws = c := by
  intro ws
  induction ws with
  | nil => intro c _; rfl
  | cons w ws ih =>
    intro c h
    have hw : w.1 ≠ i := h w (List.mem_cons_self _ _)
    show writtenFrom i (if w.1 = i then _ else c) ws = c
    rw [if_neg hw]
    exact ih c (fun r hr => h r (List.mem_cons_of_mem _ hr))

/-- C8.  Writes touching only owned slots, in any interleaving of
overwrite and accumulate mode, never raise MixedWriteModeError, leave the
compress state Writable, and after a subsequent compress each owned slot
reads exactly the value the write sequence produced while untouched slots
read zero. -/
theorem owned_writes_stay_writable (n : ℕ) (ws : List (ℕ × WriteMode × ℚ))
    (h : ∀ w ∈ ws, w.1 < n) :
    ∃ u u2, writeAll (freshLVector n) ws = .ok u ∧ u.cstate = .Writable ∧
      u.compress .Insert = .ok u2 ∧ u2.cstate = .Writable ∧
      (∀ i, i < n → u2.data.getD i 0 = writtenFrom i 0 ws) ∧
      (∀ i, i < n → (∀ w ∈ ws, w.1 ≠ i) → u2.data.getD i 0 = 0) := by
  obtain ⟨u, hu1, hu2, _, _, hu5⟩ := writeAll_owned_only ws (freshLVector n) rfl
    (by simp [freshLVector]) h
  refine ⟨u, { u with cstate := .Writable }, hu1, hu2, ?_, rfl, ?_, ?_⟩
  · unfold LVector.compress
    rw [hu2]
    rfl
  · intro i _
    show u.data.getD i 0 = _
    rw [hu5 i]
    simp only [freshLVector, getD_replicate_zero]
  · intro i hi hun
    show u.data.getD i 0 = 0
    rw [hu5 i]
    simp only [freshLVector, getD_replicate_zero]
    exact writtenFrom_untouched i ws 0 hun

/-- Witness for C8: three owned-only writes alternating overwrite and
accumulate on a fresh vector of three owned slots. -/
theorem owned_writes_stay_writable_witness :
    (∀ w ∈ [((0 : ℕ), WriteMode.overwrite, (5 : ℚ)), (1, .accumulate, 2),
      (0, .accumulate, 1)], w.1 < 3) ∧
    ∃ u u2, writeAll (freshLVector 3)
        [((0 : ℕ), WriteMode.overwrite, (5 : ℚ)), (1, .accumulate, 2),
          (0, .accumulate, 1)] = .ok u ∧
      u.cstate = .Writable ∧ u.compress .Insert = .ok u2 ∧
      u2.cstate = .Writable ∧
      (∀ i, i < 3 → u2.data.getD i 0 =
        writtenFrom i 0 [((0 : ℕ), WriteMode.overwrite, (5 : ℚ)),
          (1, .accumulate, 2), (0, .accumulate, 1)]) ∧
      (∀ i, i < 3 → (∀ w ∈ [((0 : ℕ), WriteMode.overwrite, (5 : ℚ)),
          (1, .accumulate, 2), (0, .accumulate, 1)], w.1 ≠ i) →
        u2.data.getD i 0 = 0) :=
  ⟨by decide, owned_writes_stay_writable 3 _ (by decide)⟩

/-- Modelled from the spec: the local part of an inner product.  Reductions
read only the owned sub-range of Storage, the slots before localSize; the
ghost region is never touched. -/
def LVector.inner_product (v w : LVector) : ℚ :=
  (List.zipWith (fun a b => a * b)
    (v.data.take v.localSize) (w.data.take w.localSize)).sum

/-- Modelled from the spec: the local part of the l1 norm, again summing
only over the owned sub-range of Storage. -/
def LVector.l1_norm (v : LVector) : ℚ :=
  ((v.data.take v.localSize).map (fun a => |a|)).sum

/-- Modelled from the spec: the local part of the squared l2 norm. -/
def LVector.norm_sqr (v : LVector) : ℚ :=
  v.inner_product v

lemma take_owned_zero (v : LVector)
    (h0 : ∀ i, i < v.localSize → v.data.getD i 0 = 0) :
    ∀ y ∈ v.data.take v.localSize, y = 0 := by
  intro y hy
  obtain ⟨i, hi, hget⟩ := List.mem_iff_getElem.mp hy
  have hlen : i < v.data.length := by
    have := hi
    simp only [List.length_take] at this
    omega
  have hloc : i < v.localSize := by
    have := hi
    simp only [List.length_take] at this
    omega
  rw [List.getElem_take] at hget
  rw [← hget, ← List.getD_eq_getElem v.data 0 hlen]
  exact h0 i hloc

/-- C4.  Reductions exclude ghosts: a vector whose owned entries are all
zero has zero l1 norm, zero squared l2 norm, and zero inner product with
any other vector, regardless of the contents of its ghost region, because
reductions only read the owned sub-range of Storage. -/
theorem reduction_excludes_ghosts (v w : LVector)
    (h0 : ∀ i, i < v.localSize → v.data.getD i 0 = 0) :
    v.l1_norm = 0 ∧ v.norm_sqr = 0 ∧
    v.inner_product w = 0 ∧ w.inner_product v = 0 := by
  have hz := take_owned_zero v h0
  refine ⟨?_, ?_, ?_, ?_⟩
  · apply List.sum_eq_zero
    intro y hy
    obtain ⟨z, hz2, hz3⟩ := List.mem_map.mp hy
    rw [← hz3, hz z hz2, abs_zero]
  · apply List.sum_eq_zero
    intro y hy
    obtain ⟨i, hi, hget⟩ := List.mem_iff_getElem.mp hy
    rw [List.getElem_zipWith] at hget
    have h1 : i < (v.data.take v.localSize).length := by
      simp only [List.length_zipWith] at hi
      omega
    rw [← hget, hz _ (List.getElem_mem h1), zero_mul]
  · apply List.sum_eq_zero
    intro y hy
    obtain ⟨i, hi, hget⟩ := List.mem_iff_getElem.mp hy
    rw [List.getElem_zipWith] at hget
    have h1 : i < (v.data.take v.localSize).length := by
      simp only [List.length_zipWith] at hi
      omega
    rw [← hget, hz _ (List.getElem_mem h1), zero_mul]
  · apply List.sum_eq_zero
    intro y hy
    obtain ⟨i, hi, hget⟩ := List.mem_iff_getElem.mp hy
    rw [List.getElem_zipWith] at hget
    have h1 : i < (v.data.take v.localSize).length := by
      simp only [List.length_zipWith] at hi
      omega
    rw [← hget, hz _ (List.getElem_mem h1), mul_zero]

/-- Witness for C4: a vector with two zero owned slots and nonzero ghost
slots has zero norms and zero inner products with a nonzero vector. -/
theorem reduction_excludes_ghosts_witness :
    (∀ i, i < (LVector.mk 2 [0, 0, 7, 9] .Writable).localSize →
      (LVector.mk 2 [0, 0, 7, 9] .Writable).data.getD i 0 = 0) ∧
    ((LVector.mk 2 [0, 0, 7, 9] .Writable).l1_norm = 0 ∧
     (LVector.mk 2 [0, 0, 7, 9] .Writable).norm_sqr = 0 ∧
     (LVector.mk 2 [0, 0, 7, 9] .Writable).inner_product
        (LVector.mk 2 [1, 2, 3, 4] .Writable) = 0 ∧
     (LVector.mk 2 [1, 2, 3, 4] .Writable).inner_product
        (LVector.mk 2 [0, 0, 7, 9] .Writable) = 0) :=
  ⟨by decide, reduction_excludes_ghosts (LVector.mk 2 [0, 0, 7, 9] .Writable)
    (LVector.mk 2 [1, 2, 3, 4] .Writable) (by decide)⟩

/-- Modelled from the spec: the facade linear combination
v.add(a, w, b, x), acting element-wise over the whole flat buffer, owned
and ghost regions treated identically; the arguments w and x are read
only. -/
def LVector.add (v : LVector) (a : ℚ) (w : LVector) (b : ℚ) (x : LVector) :
    LVector :=
  { v with
    data := List.zipWith (fun vi wx => vi + a * wx.1 + b * wx.2)
      v.data (w.data.zip x.data) }

/-- C9.  The facade add(a, w, b, x) sets every element of v, over owned and
ghost regions identically, to its old value plus a times the corresponding
element of w plus b times the corresponding element of x (w and x are
consumed read-only: the operation builds the new buffer of v from their
unchanged contents). -/
theorem add_two_scaled (v w x : LVector) (a b : ℚ)
    (hw : w.data.length = v.data.length) (hx : x.data.length = v.data.length) :
    (v.add a w b x).data.length = v.data.length ∧
    (v.add a w b x).localSize = v.localSize ∧
    ∀ i, i < v.data.length →
      (v.add a w b x).data.getD i 0 =
        v.data.getD i 0 + a * w.data.getD i 0 + b * x.data.getD i 0 := by
  have hlen : (v.add a w b x).data.length = v.data.length := by
    simp only [LVector.add, List.length_zipWith, List.length_zip, hw, hx]
    omega
  refine ⟨hlen, rfl, ?_⟩
  intro i hi
  have h1 : i < (v.add a w b x).data.length := by omega
  have h2 : i < w.data.length := by omega
  have h3 : i < x.data.length := by omega
  rw [List.getD_eq_getElem _ _ h1, List.getD_eq_getElem _ _ hi,
    List.getD_eq_getElem _ _ h2, List.getD_eq_getElem _ _ h3]
  simp only [LVector.add, List.getElem_zipWith, List.getElem_zip]

/-- Witness for C9 on concrete three-element buffers. -/
theorem add_two_scaled_witness :
    ((LVector.mk 3 [4, 5, 6] .Writable).data.length =
        (LVector.mk 3 [1, 2, 3] .Writable).data.length) ∧
    (((LVector.mk 3 [1, 2, 3] .Writable).add 2 (LVector.mk 3 [4, 5, 6] .Writable)
        3 (LVector.mk 3 [7, 8, 9] .Writable)).data.length =
      (LVector.mk 3 [1, 2, 3] .Writable).data.length ∧
     ((LVector.mk 3 [1, 2, 3] .Writable).add 2 (LVector.mk 3 [4, 5, 6] .Writable)
        3 (LVector.mk 3 [7, 8, 9] .Writable)).localSize =
      (LVector.mk 3 [1, 2, 3] .Writable).localSize ∧
     ∀ i, i < (LVector.mk 3 [1, 2, 3] .Writable).data.length →
       ((LVector.mk 3 [1, 2, 3] .Writable).add 2 (LVector.mk 3 [4, 5, 6] .Writable)
          3 (LVector.mk 3 [7, 8, 9] .Writable)).data.getD i 0 =
         (LVector.mk 3 [1, 2, 3] .Writable).data.getD i 0 +
           2 * (LVector.mk 3 [4, 5, 6] .Writable).data.getD i 0 +
           3 * (LVector.mk 3 [7, 8, 9] .Writable).data.getD i 0) :=
  ⟨by decide, add_two_scaled (LVector.mk 3 [1, 2, 3] .Writable)
    (LVector.mk 3 [4, 5, 6] .Writable) (LVector.mk 3 [7, 8, 9] .Writable)
    2 3 (by decide) (by decide)⟩

/-- Modelled from the spec: the two memory spaces of the storage design,
host memory and the accelerator (Default) memory space. -/
inductive MemSpace
  | Host
  | Default
deriving DecidableEq

/-- Modelled from the spec: a Storage buffer living in one memory space;
the flat value buffer covers the owned region and the ghost region. -/
structure Storage where
  space : MemSpace
  data : List ℚ
deriving DecidableEq

/-- Modelled from the spec: transfer_to copies the full buffer (owned and
ghost region) into the requested memory space; it never changes values,
only their location. -/
def Storage.transfer_to (s : Storage) (sp : MemSpace) : Storage :=
  { s with space := sp }

/-- C6.  Cross-space round-trip: transferring a Storage buffer to another
memory space changes no value, and transferring back to the original
space reproduces the original buffer bit for bit. -/
theorem transfer_round_trip (s : Storage) (A B : MemSpace) (h : s.space = A) :
    (s.transfer_to B).data = s.data ∧ (s.transfer_to B).transfer_to A = s := by
  obtain ⟨sp, d⟩ := s
  cases h
  exact ⟨rfl, rfl⟩

/-- Witness for C6: a host buffer sent to the Default space and back. -/
theorem transfer_round_trip_witness :
    (Storage.mk .Host [1, 2, 3]).space = .Host ∧
    (((Storage.mk .Host [1, 2, 3]).transfer_to .Default).data =
        (Storage.mk .Host [1, 2, 3]).data ∧
      ((Storage.mk .Host [1, 2, 3]).transfer_to .Default).transfer_to .Host =
        Storage.mk .Host [1, 2, 3]) :=
  ⟨rfl, transfer_round_trip (Storage.mk .Host [1, 2, 3]) .Host .Default rfl⟩

/-- Modelled from the spec: a vector over one scalar type at the public
interface level used by the cross-precision assignment instantiations
(the template bodies are absent): the list of global indices it stores
and its value at each of them. -/
structure TypedVector (α : Type) where
  stored : List ℕ
  vals : ℕ → α

/-- Modelled from the spec: assignment between vectors of different scalar
precisions.  The destination takes over the set of stored indices of the
source and holds at each of them the value of the source converted to the
destination scalar type; the source, taken read-only, is unchanged. -/
def assignConvert {α β : Type} (conv : α → β) (src : TypedVector α) :
    TypedVector β :=
  { stored := src.stored, vals := fun g => conv (src.vals g) }

/-- C10.  Cross-precision assignment: after assigning from a vector of a
different scalar type, the destination stores the same global indices and
holds at each stored index the value of the source converted to the
destination scalar type (the source is read-only and unchanged). -/
theorem assign_converts (α β : Type) (conv : α → β) (src : TypedVector α) :
    (assignConvert conv src).stored = src.stored ∧
    ∀ g ∈ (assignConvert conv src).stored,
      (assignConvert conv src).vals g = conv (src.vals g) :=
  ⟨rfl, fun _ _ => rfl⟩

/-- Witness for C10: converting an integer-valued vector to rationals. -/
theorem assign_converts_witness :
    (46 ∈ (assignConvert (fun z : ℤ => (z : ℚ))
        (TypedVector.mk [0, 1, 46] (fun g => (g : ℤ)))).stored) ∧
    (assignConvert (fun z : ℤ => (z : ℚ))
        (TypedVector.mk [0, 1, 46] (fun g => (g : ℤ)))).vals 46 =
      ((TypedVector.mk [0, 1, 46] (fun g => (g : ℤ))).vals 46 : ℚ) :=
  ⟨by decide, (assign_converts ℤ ℚ (fun z : ℤ => (z : ℚ))
    (TypedVector.mk [0, 1, 46] (fun g => (g : ℤ)))).2 46 (by decide)⟩

end DealII
